import Mathlib

/-!
# Verification of the MNIST tutorial notebook (`notebooks/MNIST.ipynb`)

A shallow embedding of the notebook's data transformations and model
definitions.  Machine floating-point arithmetic is modelled as exact
rational arithmetic (`ℚ`); uint8 pixel values are natural numbers;
numpy arrays are lists (of lists for 2-d arrays).
-/

namespace MNISTNotebook

/-! ## Pixel preprocessing (`X = mnist.data.astype('float32')`, `X /= 255.0`) -/

/-- `mnist.data.astype('float32')` applied to one uint8 pixel value: conversion
of an integer below 2^24 to float32 is exact, modelled as the rational value. -/
def astypeFloat32 (v : ℕ) : ℚ := (v : ℚ)

/-- `X /= 255.0` applied to one pixel: divide by 255 (float division modelled
as exact rational division). -/
def scalePixel (v : ℕ) : ℚ := astypeFloat32 v / 255

/-- The notebook's preprocessing of the whole feature matrix `X`:
convert every entry to float and divide by 255. -/
def scaleX (X : List (List ℕ)) : List (List ℚ) := X.map (fun row => row.map scalePixel)

/-- All entries of a 2-d array, flattened; `X.min()`/`X.max()` range over these. -/
def entries (X : List (List ℚ)) : List ℚ := X.flatten

/-- `X.min()` : numpy minimum over all entries (none on an empty array). -/
def npMin (X : List (List ℚ)) : WithTop ℚ := (entries X).minimum

/-- `X.max()` : numpy maximum over all entries (none on an empty array). -/
def npMax (X : List (List ℚ)) : WithBot ℚ := (entries X).maximum

theorem scalePixel_mem_entries {X : List (List ℕ)} {r : List ℕ} {v : ℕ}
    (hr : r ∈ X) (hv : v ∈ r) : scalePixel v ∈ entries (scaleX X) := by
  simp only [entries, scaleX, List.mem_flatten, List.mem_map]
  exact ⟨r.map scalePixel, ⟨r, hr, rfl⟩, List.mem_map_of_mem scalePixel hv⟩

theorem entries_scaleX_bounds {X : List (List ℕ)} (hb : ∀ r ∈ X, ∀ v ∈ r, v ≤ 255) :
    ∀ q ∈ entries (scaleX X), 0 ≤ q ∧ q ≤ 1 := by
  intro q hq
  simp only [entries, scaleX, List.mem_flatten, List.mem_map] at hq
  obtain ⟨l, ⟨r, hr, rfl⟩, hq⟩ := hq
  obtain ⟨v, hv, rfl⟩ := List.mem_map.mp hq
  have hv255 : (v : ℚ) ≤ 255 := by exact_mod_cast hb r hr v hv
  constructor
  · show (0 : ℚ) ≤ (v : ℚ) / 255
    positivity
  · show (v : ℚ) / 255 ≤ 1
    rw [div_le_one (by norm_num)]
    exact hv255

/-- **C1.** After preprocessing every entry of `X` lies in `[0, 1]`: a uint8
pixel value `v ≤ 255` converted to float and divided by 255 is exactly `v/255`,
which lies in `[0, 1]`; and on data that attains both extreme pixel values 0
and 255 (as MNIST does), `X.min()` is 0 and `X.max()` is 1. -/
theorem scaleX_entries_in_unit_interval :
    (∀ v : ℕ, v ≤ 255 →
      scalePixel v = (v : ℚ) / 255 ∧ 0 ≤ scalePixel v ∧ scalePixel v ≤ 1) ∧
    (∀ X : List (List ℕ), (∀ r ∈ X, ∀ v ∈ r, v ≤ 255) →
      (∃ r ∈ X, 0 ∈ r) → (∃ r ∈ X, 255 ∈ r) →
      npMin (scaleX X) = (0 : ℚ) ∧ npMax (scaleX X) = (1 : ℚ)) := by
  constructor
  · intro v hv
    refine ⟨rfl, ?_, ?_⟩
    · show (0 : ℚ) ≤ (v : ℚ) / 255
      positivity
    · show (v : ℚ) / 255 ≤ 1
      rw [div_le_one (by norm_num)]
      exact_mod_cast hv
  · intro X hb h0 h255
    obtain ⟨r0, hr0, h0r⟩ := h0
    obtain ⟨r1, hr1, h1r⟩ := h255
    have hmem0 : (0 : ℚ) ∈ entries (scaleX X) := by
      have := scalePixel_mem_entries hr0 h0r
      simpa [scalePixel, astypeFloat32] using this
    have hmem1 : (1 : ℚ) ∈ entries (scaleX X) := by
      have := scalePixel_mem_entries hr1 h1r
      have h1 : scalePixel 255 = (1 : ℚ) := by norm_num [scalePixel, astypeFloat32]
      rwa [h1] at this
    have hbd := entries_scaleX_bounds hb
    constructor
    · rw [npMin, List.minimum_eq_coe_iff]
      exact ⟨hmem0, fun b hb' => (hbd b hb').1⟩
    · rw [npMax, List.maximum_eq_coe_iff]
      exact ⟨hmem1, fun b hb' => (hbd b hb').2⟩

theorem scaleX_entries_in_unit_interval_witness :
    scalePixel 128 = (128 : ℚ) / 255 ∧
    npMin (scaleX [[0, 128], [255]]) = (0 : ℚ) ∧
    npMax (scaleX [[0, 128], [255]]) = (1 : ℚ) := by
  refine ⟨(scaleX_entries_in_unit_interval.1 128 (by norm_num)).1, ?_, ?_⟩
  · exact (scaleX_entries_in_unit_interval.2 [[0, 128], [255]]
      (by decide) ⟨[0, 128], by simp⟩ ⟨[255], by simp⟩).1
  · exact (scaleX_entries_in_unit_interval.2 [[0, 128], [255]]
      (by decide) ⟨[0, 128], by simp⟩ ⟨[255], by simp⟩).2

/-! ## Train/test split (`train_test_split(X, y, test_size=0.25, random_state=42)`) -/

/-- Select the rows of `xs` at the positions in `is`, in order (an
out-of-range index contributes nothing; the shuffled index lists used
below are always in range). -/
def selectIdx {α : Type} (xs : List α) (is : List ℕ) : List α :=
  is.filterMap (fun i => xs[i]?)

/-- sklearn's test-set size for `test_size=p` on `n` rows: `ceil(p * n)`. -/
def nTest (p : ℚ) (n : ℕ) : ℕ := ⌈p * n⌉₊

/-- sklearn's train-set size: the remaining rows. -/
def nTrain (p : ℚ) (n : ℕ) : ℕ := n - nTest p n

/-- sklearn's `train_test_split(X, y, test_size=p, random_state=seed)`,
returning `(X_train, X_test, y_train, y_test)`.  The pseudo-random shuffle is
abstracted as a function `perm` of the seed and the row count (sklearn's
shuffle is a pure function of exactly these); the test rows are the first
`nTest` shuffled indices, the train rows the rest, and `X` and `y` are
subset with the same indices. -/
def trainTestSplit {α β : Type} (perm : ℕ → ℕ → List ℕ) (seed : ℕ) (p : ℚ)
    (X : List α) (y : List β) : List α × List α × List β × List β :=
  let n := X.length
  let is := perm seed n
  let testIdx := is.take (nTest p n)
  let trainIdx := is.drop (nTest p n)
  (selectIdx X trainIdx, selectIdx X testIdx, selectIdx y trainIdx, selectIdx y testIdx)

theorem selectIdx_length {α : Type} (xs : List α) (is : List ℕ)
    (h : ∀ i ∈ is, i < xs.length) : (selectIdx xs is).length = is.length := by
  induction is with
  | nil => rfl
  | cons i is ih =>
    have hi : i < xs.length := h i (List.mem_cons_self i is)
    simp only [selectIdx, List.filterMap_cons, List.getElem?_eq_getElem hi,
      Option.some.injEq]
    simp only [selectIdx] at ih
    simp [ih (fun j hj => h j (List.mem_cons_of_mem i hj))]

theorem nTest_le (p : ℚ) (n : ℕ) (hp : p ≤ 1) : nTest p n ≤ n := by
  rw [nTest, Nat.ceil_le]
  calc p * n ≤ 1 * n := by
        apply mul_le_mul_of_nonneg_right hp
        exact_mod_cast Nat.zero_le n
    _ = (n : ℚ) := one_mul _

/-- **C2.** The split partitions the rows: for any shuffle that permutes the
row indices, `X_train.shape[0] + X_test.shape[0]` equals the original row
count (the notebook's `assert`), and with `test_size=0.25` on the 70000-row
MNIST arrays the split sizes are 52500 and 17500. -/
theorem trainTestSplit_partitions {α β : Type} (perm : ℕ → ℕ → List ℕ) (seed : ℕ)
    (X : List α) (y : List β)
    (hperm : ∀ n, (perm seed n).Perm (List.range n)) :
    ((trainTestSplit perm seed (1/4) X y).1.length
      + (trainTestSplit perm seed (1/4) X y).2.1.length = X.length) ∧
    (X.length = 70000 →
      (trainTestSplit perm seed (1/4) X y).1.length = 52500 ∧
      (trainTestSplit perm seed (1/4) X y).2.1.length = 17500) := by
  have hlen : (perm seed X.length).length = X.length :=
    ((hperm X.length).length_eq).trans (List.length_range X.length)
  have hmem : ∀ i ∈ perm seed X.length, i < X.length := by
    intro i hi
    have := ((hperm X.length).mem_iff).mp hi
    exact List.mem_range.mp this
  have hle : nTest (1/4) X.length ≤ X.length := nTest_le _ _ (by norm_num)
  have htest : (trainTestSplit perm seed (1/4) X y).2.1.length = nTest (1/4) X.length := by
    show (selectIdx X ((perm seed X.length).take (nTest (1/4) X.length))).length = _
    rw [selectIdx_length]
    · rw [List.length_take, hlen, min_eq_left hle]
    · intro i hi
      exact hmem i (List.mem_of_mem_take hi)
  have htrain : (trainTestSplit perm seed (1/4) X y).1.length
      = X.length - nTest (1/4) X.length := by
    show (selectIdx X ((perm seed X.length).drop (nTest (1/4) X.length))).length = _
    rw [selectIdx_length]
    · rw [List.length_drop, hlen]
    · intro i hi
      exact hmem i (List.mem_of_mem_drop hi)
  refine ⟨?_, ?_⟩
  · rw [htest, htrain]
    omega
  · intro h70000
    have hval : nTest (1/4) 70000 = 17500 := by
      have h4 : (1/4 : ℚ) * (70000 : ℕ) = ((17500 : ℕ) : ℚ) := by norm_num
      rw [nTest, h4, Nat.ceil_natCast]
    rw [htest, htrain, h70000, hval]
    omega

theorem trainTestSplit_partitions_witness :
    (∀ n, ((fun (_ : ℕ) (m : ℕ) => List.range m) 42 n).Perm (List.range n)) ∧
    (trainTestSplit (fun _ m => List.range m) 42 (1/4)
        (List.range 70000) (List.range 70000)).1.length = 52500 := by
  have hperm : ∀ n, ((fun (_ : ℕ) (m : ℕ) => List.range m) 42 n).Perm (List.range n) :=
    fun n => List.Perm.refl _
  refine ⟨hperm, ?_⟩
  exact ((trainTestSplit_partitions (fun _ m => List.range m) 42
    (List.range 70000) (List.range 70000) hperm).2 (List.length_range 70000)).1

/-! ## Consistency of the two splits (`X`/`y` vs `XCnn`/`y`, same `random_state`) -/

theorem selectIdx_map {α β : Type} (f : α → β) (xs : List α) (is : List ℕ) :
    selectIdx (xs.map f) is = (selectIdx xs is).map f := by
  induction is with
  | nil => rfl
  | cons i is ih =>
    simp only [selectIdx, List.filterMap_cons, List.getElem?_map] at *
    cases h : xs[i]? with
    | none => simpa [h] using ih
    | some a => simpa [h] using ih

/-- **C7.** The two `train_test_split` calls with `random_state=42` are
deterministic and pick the same row indices: `XCnn = X.reshape(...)` is a
row-wise map `r` of `X`, the second split uses the same shuffled index list
as the first, reproduces the same `y_train` and `y_test`, and every test row
`XCnn_test[i]` is exactly `r` applied to `X_test[i]`. -/
theorem trainTestSplit_deterministic_consistent {α β γ : Type}
    (perm : ℕ → ℕ → List ℕ) (seed : ℕ) (p : ℚ)
    (X : List α) (y : List β) (r : α → γ) :
    perm seed (X.map r).length = perm seed X.length ∧
    (trainTestSplit perm seed p (X.map r) y).2.1
      = ((trainTestSplit perm seed p X y).2.1).map r ∧
    (trainTestSplit perm seed p (X.map r) y).1
      = ((trainTestSplit perm seed p X y).1).map r ∧
    (trainTestSplit perm seed p (X.map r) y).2.2.1
      = (trainTestSplit perm seed p X y).2.2.1 ∧
    (trainTestSplit perm seed p (X.map r) y).2.2.2
      = (trainTestSplit perm seed p X y).2.2.2 ∧
    ∀ i : ℕ, ((trainTestSplit perm seed p (X.map r) y).2.1)[i]?
      = (((trainTestSplit perm seed p X y).2.1)[i]?).map r := by
  have hlen : (X.map r).length = X.length := List.length_map X r
  refine ⟨by rw [hlen], ?_, ?_, ?_, ?_, ?_⟩
  · show selectIdx (X.map r) (((perm seed (X.map r).length)).take (nTest p (X.map r).length)) = _
    rw [hlen, selectIdx_map]
    rfl
  · show selectIdx (X.map r) (((perm seed (X.map r).length)).drop (nTest p (X.map r).length)) = _
    rw [hlen, selectIdx_map]
    rfl
  · show selectIdx y (((perm seed (X.map r).length)).drop (nTest p (X.map r).length)) = _
    rw [hlen]
    rfl
  · show selectIdx y (((perm seed (X.map r).length)).take (nTest p (X.map r).length)) = _
    rw [hlen]
    rfl
  · intro i
    show (selectIdx (X.map r) (((perm seed (X.map r).length)).take (nTest p (X.map r).length)))[i]? = _
    rw [hlen, selectIdx_map, List.getElem?_map]
    rfl

/-! ## Accuracy evaluation (`np.mean(predicted == y_test)`) -/

/-- `predicted == y_test`: numpy elementwise equality of two label vectors. -/
def eqArray (p y : List ℤ) : List Bool := List.zipWith (fun a b => a == b) p y

/-- `np.mean` of a boolean array: `True` counts as 1.0, `False` as 0.0,
summed and divided by the array length. -/
def npMeanBool (l : List Bool) : ℚ :=
  (l.map (fun b => if b then (1 : ℚ) else 0)).sum / l.length

/-- The notebook's evaluation expression, used verbatim for both the
feed-forward net (`np.mean(predicted == y_test)`) and the CNN
(`np.mean(cnn_pred == y_test)`). -/
def accuracyExpr (p y : List ℤ) : ℚ := npMeanBool (eqArray p y)

/-- Number of positions at which the two label vectors agree. -/
def matchCount (p y : List ℤ) : ℕ :=
  (p.zip y).countP (fun ab => ab.1 == ab.2)

theorem sum_indicator_eq_matchCount (p y : List ℤ) :
    ((eqArray p y).map (fun b => if b then (1 : ℚ) else 0)).sum
      = (matchCount p y : ℚ) := by
  induction p generalizing y with
  | nil => simp [eqArray, matchCount]
  | cons a p ih =>
    cases y with
    | nil => simp [eqArray, matchCount]
    | cons b y =>
      simp only [eqArray, matchCount, List.zipWith_cons_cons, List.map_cons,
        List.sum_cons, List.zip_cons_cons, List.countP_cons] at *
      by_cases hab : a = b
      · simp [hab, ih, add_comm]
      · simp [hab, ih]

/-- **C3.** For equal-length integer label vectors, `np.mean(predicted == y_test)`
is exactly the number of matching positions divided by the common length. -/
theorem accuracyExpr_eq_matchFraction (p y : List ℤ) (h : p.length = y.length) :
    accuracyExpr p y = (matchCount p y : ℚ) / p.length := by
  have hlen : (eqArray p y).length = p.length := by
    rw [eqArray, List.length_zipWith, h, min_self]
  rw [accuracyExpr, npMeanBool, sum_indicator_eq_matchCount, hlen]

theorem accuracyExpr_eq_matchFraction_witness :
    ([1, 2, 3] : List ℤ).length = ([1, 0, 3] : List ℤ).length ∧
    accuracyExpr [1, 2, 3] [1, 0, 3] = (matchCount [1, 2, 3] [1, 0, 3] : ℚ) / 3 :=
  ⟨by decide, accuracyExpr_eq_matchFraction [1, 2, 3] [1, 0, 3] (by decide)⟩

/-! ## Network dimensions and module structure -/

/-- `mnist_dim = X.shape[1]`: the second component of the array shape. -/
def mnist_dim (shape : ℕ × ℕ) : ℕ := shape.2

/-- `hidden_dim = int(mnist_dim/8)`: Python true division truncated by `int`,
which on non-negative operands is floor division. -/
def hidden_dim (shape : ℕ × ℕ) : ℕ := mnist_dim shape / 8

/-- `output_dim = len(np.unique(mnist.target))`: the number of distinct labels. -/
def output_dim (targets : List ℕ) : ℕ := targets.dedup.length

/-- One layer of a torch module, as declared in `__init__`. -/
inductive LayerSpec : Type
  | linear (inF outF : ℕ)
  | conv2d (inC outC k : ℕ)
  | dropout
  | dropout2d
deriving DecidableEq

def LayerSpec.isConv : LayerSpec → Bool
  | .conv2d _ _ _ => true
  | _ => false

/-- A torch module: its class name and declared layers, in order. -/
structure ModuleSpec where
  name : String
  layers : List LayerSpec
deriving DecidableEq

/-- `ClassifierModule`: dropout plus the two linear layers
`input_dim → hidden_dim` and `hidden_dim → output_dim`. -/
def ClassifierModule (inD hD outD : ℕ) : ModuleSpec :=
  ⟨"ClassifierModule", [.dropout, .linear inD hD, .linear hD outD]⟩

/-- `Cnn`: two 3×3 convolutions (1→32 and 32→64 channels), 2-d dropout, and
the two linear layers 1600→128 and 128→10. -/
def Cnn : ModuleSpec :=
  ⟨"Cnn", [.conv2d 1 32 3, .conv2d 32 64 3, .dropout2d, .linear 1600 128, .linear 128 10]⟩

/-- The modules the notebook defines and trains, in order of appearance,
with `ClassifierModule`'s dimensions computed from the data. -/
def notebookModules (shape : ℕ × ℕ) (targets : List ℕ) : List ModuleSpec :=
  [ClassifierModule (mnist_dim shape) (hidden_dim shape) (output_dim targets), Cnn]

/-- The (in, out) dimensions of a module's linear layers, in order. -/
def linearDims (m : ModuleSpec) : List (ℕ × ℕ) :=
  m.layers.filterMap (fun l => match l with | .linear a b => some (a, b) | _ => none)

theorem output_dim_eq_ten {targets : List ℕ}
    (hlt : ∀ t ∈ targets, t < 10) (hall : ∀ d, d < 10 → d ∈ targets) :
    output_dim targets = 10 := by
  have hset : targets.toFinset = Finset.range 10 := by
    ext d
    simp only [List.mem_toFinset, Finset.mem_range]
    exact ⟨fun h => hlt d h, fun h => hall d h⟩
  have := List.card_toFinset targets
  rw [hset, Finset.card_range] at this
  exact this.symm ▸ rfl

/-- **C4.** The notebook defines exactly two modules: with the MNIST shape
`(70000, 784)` and a target column containing exactly the digits 0–9, the
computed dimensions are `mnist_dim = 784`, `hidden_dim = int(784/8) = 98`,
`output_dim = 10`, the feed-forward classifier's linear layers are
`784 → 98 → 10` (a single hidden layer), and the convolutional classifier
has exactly two convolution layers. -/
theorem notebookModules_structure (targets : List ℕ)
    (hlt : ∀ t ∈ targets, t < 10) (hall : ∀ d, d < 10 → d ∈ targets) :
    mnist_dim (70000, 784) = 784 ∧
    hidden_dim (70000, 784) = 98 ∧
    output_dim targets = 10 ∧
    (notebookModules (70000, 784) targets).length = 2 ∧
    linearDims (ClassifierModule (mnist_dim (70000, 784)) (hidden_dim (70000, 784))
      (output_dim targets)) = [(784, 98), (98, 10)] ∧
    (Cnn.layers.countP LayerSpec.isConv) = 2 := by
  have h10 := output_dim_eq_ten hlt hall
  refine ⟨rfl, rfl, h10, rfl, ?_, by decide⟩
  rw [h10]
  decide

theorem notebookModules_structure_witness :
    output_dim [0, 1, 2, 3, 4, 5, 6, 7, 8, 9] = 10 ∧
    (notebookModules (70000, 784) [0, 1, 2, 3, 4, 5, 6, 7, 8, 9]).length = 2 :=
  ⟨(notebookModules_structure [0, 1, 2, 3, 4, 5, 6, 7, 8, 9]
      (by decide) (by decide)).2.2.1,
   (notebookModules_structure [0, 1, 2, 3, 4, 5, 6, 7, 8, 9]
      (by decide) (by decide)).2.2.2.1⟩

/-! ## CNN shape propagation -/

/-- Shape of a 4-d tensor: batch, channels, height, width. -/
structure Shape4 where
  n : ℕ
  c : ℕ
  h : ℕ
  w : ℕ
deriving DecidableEq

/-- Output shape of `nn.Conv2d(inC, outC, kernel_size=k)` (stride 1, no
padding): requires matching input channels and spatial extent at least `k`;
each spatial dimension shrinks by `k - 1`. -/
def conv2dShape (inC outC k : ℕ) (s : Shape4) : Option Shape4 :=
  if s.c = inC ∧ k ≤ s.h ∧ k ≤ s.w then
    some ⟨s.n, outC, s.h - k + 1, s.w - k + 1⟩
  else none

/-- Output shape of `F.max_pool2d(·, k)`: floor-divides height and width by `k`. -/
def maxPool2dShape (k : ℕ) (s : Shape4) : Option Shape4 :=
  if 0 < k ∧ k ≤ s.h ∧ k ≤ s.w then some ⟨s.n, s.c, s.h / k, s.w / k⟩ else none

/-- `x.view(-1, x.size(1) * x.size(2) * x.size(3))`: flatten channels,
height and width into one feature axis. -/
def flattenShape (s : Shape4) : ℕ × ℕ := (s.n, s.c * s.h * s.w)

/-- `nn.Linear(inF, outF)` on a 2-d input: the feature width must equal the
declared input dimension, else a shape-mismatch error (`none`). -/
def linearShape (inF outF : ℕ) (s : ℕ × ℕ) : Option (ℕ × ℕ) :=
  if s.2 = inF then some (s.1, outF) else none

/-- Shape of the tensor reaching the flatten step of `Cnn.forward`: conv1,
max-pool 2, conv2 (dropout2d, relu preserve shape), max-pool 2. -/
def cnnTrunkShape (s : Shape4) : Option Shape4 := do
  let s1 ← conv2dShape 1 32 3 s
  let s2 ← maxPool2dShape 2 s1
  let s3 ← conv2dShape 32 64 3 s2
  maxPool2dShape 2 s3

/-- The full shape pipeline of `Cnn.forward`: trunk, flatten,
`fc1 : 1600 → 128`, dropout, `fc2 : 128 → 10`, softmax (shape-preserving). -/
def cnnForwardShape (s : Shape4) : Option (ℕ × ℕ) := do
  let t ← cnnTrunkShape s
  let g ← linearShape 1600 128 (flattenShape t)
  linearShape 128 10 g

set_option maxRecDepth 8192

/-- **C5.** On any batch of shape `(n, 1, 28, 28)` the tensor reaching
`Cnn.forward`'s flatten step has shape `(n, 64, 5, 5)` (28 → 26 → 13 → 11 → 5),
the flattened width `64*5*5 = 1600` matches `fc1`'s declared input dimension,
and the whole forward pass succeeds with output shape `(n, 10)` — no
shape-mismatch error is reached. -/
theorem cnnForwardShape_ok (n : ℕ) :
    cnnTrunkShape ⟨n, 1, 28, 28⟩ = some ⟨n, 64, 5, 5⟩ ∧
    flattenShape ⟨n, 64, 5, 5⟩ = (n, 1600) ∧
    cnnForwardShape ⟨n, 1, 28, 28⟩ = some (n, 10) := by
  refine ⟨?_, rfl, ?_⟩
  · simp [cnnTrunkShape, conv2dShape, maxPool2dShape]
  · simp [cnnForwardShape, cnnTrunkShape, conv2dShape, maxPool2dShape,
      linearShape, flattenShape]

/-! ## `ClassifierModule.forward`: a probability distribution over 10 classes

Numeric values are exact rationals; the float `exp` inside `F.softmax` is
abstracted as a parameter `e`, of which only strict positivity (true of the
real exponential) is used. -/

/-- Dot product of a weight row with the input vector. -/
def dot (w x : List ℚ) : ℚ := (List.zipWith (· * ·) w x).sum

/-- `nn.Linear` applied to one input vector: one output `⟨row, x⟩ + bias`
per weight row. -/
def linear (W : List (List ℚ)) (b : List ℚ) (x : List ℚ) : List ℚ :=
  List.zipWith (fun row bi => dot row x + bi) W b

/-- `F.relu` on one entry. -/
def relu (q : ℚ) : ℚ := max q 0

/-- `F.softmax(·, dim=-1)` over one row, parametrised by the exponential `e`. -/
def softmaxWith (e : ℚ → ℚ) (xs : List ℚ) : List ℚ :=
  xs.map (fun x => e x / (xs.map e).sum)

/-- `ClassifierModule.forward` on one input row: hidden linear layer, relu,
dropout `d` (an arbitrary elementwise transform: the identity in eval mode,
random rescaling in train mode), output linear layer, softmax. -/
def classifierForward (e : ℚ → ℚ) (d : List ℚ → List ℚ)
    (Wh : List (List ℚ)) (bh : List ℚ) (Wo : List (List ℚ)) (bo : List ℚ)
    (x : List ℚ) : List ℚ :=
  softmaxWith e (linear Wo bo (d ((linear Wh bh x).map relu)))

/-- `forward` on a batch: rows are mapped independently. -/
def classifierForwardBatch (e : ℚ → ℚ) (d : List ℚ → List ℚ)
    (Wh : List (List ℚ)) (bh : List ℚ) (Wo : List (List ℚ)) (bo : List ℚ)
    (X : List (List ℚ)) : List (List ℚ) :=
  X.map (classifierForward e d Wh bh Wo bo)

/-- `net.predict`: index of the (first) largest class probability. -/
def argmaxIdx : List ℚ → ℕ
  | [] => 0
  | [_] => 0
  | x :: y :: t =>
    if (y :: t).getD (argmaxIdx (y :: t)) 0 ≤ x then 0 else argmaxIdx (y :: t) + 1

theorem sum_map_div (l : List ℚ) (S : ℚ) : (l.map (· / S)).sum = l.sum / S := by
  induction l with
  | nil => simp
  | cons a l ih => simp [ih, add_div]

theorem softmaxWith_sum (e : ℚ → ℚ) (xs : List ℚ)
    (he : ∀ x, 0 < e x) (hne : xs ≠ []) : (softmaxWith e xs).sum = 1 := by
  have hS : 0 < (xs.map e).sum := by
    apply List.sum_pos
    · intro y hy
      obtain ⟨x, _, rfl⟩ := List.mem_map.mp hy
      exact he x
    · simpa using hne
  have hmaps : softmaxWith e xs = (xs.map e).map (· / (xs.map e).sum) := by
    rw [softmaxWith, List.map_map]
    rfl
  rw [hmaps, sum_map_div, div_self hS.ne']

theorem softmaxWith_mem_unit (e : ℚ → ℚ) (xs : List ℚ)
    (he : ∀ x, 0 < e x) :
    ∀ q ∈ softmaxWith e xs, 0 ≤ q ∧ q ≤ 1 := by
  intro q hq
  obtain ⟨x, hx, rfl⟩ := List.mem_map.mp hq
  have hS : 0 < (xs.map e).sum := by
    apply List.sum_pos
    · intro y hy
      obtain ⟨z, _, rfl⟩ := List.mem_map.mp hy
      exact he z
    · exact fun h => by simp [List.map_eq_nil_iff.mp h] at hx
  refine ⟨le_of_lt (div_pos (he x) hS), ?_⟩
  rw [div_le_one hS]
  exact List.single_le_sum (fun y hy => by
    obtain ⟨z, _, rfl⟩ := List.mem_map.mp hy
    exact (he z).le) _ (List.mem_map_of_mem e hx)

theorem argmaxIdx_lt (xs : List ℚ) (h : xs ≠ []) : argmaxIdx xs < xs.length := by
  induction xs with
  | nil => exact absurd rfl h
  | cons x t ih =>
    cases t with
    | nil => simp [argmaxIdx]
    | cons y s =>
      have iht := ih (by simp)
      simp only [List.length_cons] at iht ⊢
      by_cases hc : (y :: s).getD (argmaxIdx (y :: s)) 0 ≤ x
      · rw [argmaxIdx, if_pos hc]
        omega
      · rw [argmaxIdx, if_neg hc]
        omega

/-- **C6.** For any batch of input rows, `ClassifierModule.forward` returns
one row per input; whenever the output layer has 10 weight rows and 10
biases (as instantiated: `output_dim = 10`) each returned row has length 10,
every entry lies in `[0, 1]`, the entries sum to 1 (the final softmax yields
a probability distribution over the 10 digit classes), and the predicted
label — the argmax of the row — lies in `0..9`. -/
theorem classifierForward_distribution (e : ℚ → ℚ) (d : List ℚ → List ℚ)
    (Wh : List (List ℚ)) (bh : List ℚ) (Wo : List (List ℚ)) (bo : List ℚ)
    (X : List (List ℚ)) (he : ∀ x, 0 < e x)
    (hWo : Wo.length = 10) (hbo : bo.length = 10) :
    (classifierForwardBatch e d Wh bh Wo bo X).length = X.length ∧
    ∀ row ∈ classifierForwardBatch e d Wh bh Wo bo X,
      row.length = 10 ∧ row.sum = 1 ∧ (∀ q ∈ row, 0 ≤ q ∧ q ≤ 1) ∧
      argmaxIdx row < 10 := by
  refine ⟨List.length_map X _, ?_⟩
  intro row hrow
  obtain ⟨x, _, rfl⟩ := List.mem_map.mp hrow
  have hlin : (linear Wo bo (d ((linear Wh bh x).map relu))).length = 10 := by
    rw [linear, List.length_zipWith, hWo, hbo, min_self]
  have hlen : (classifierForward e d Wh bh Wo bo x).length = 10 := by
    rw [classifierForward, softmaxWith, List.length_map, hlin]
  have hne : linear Wo bo (d ((linear Wh bh x).map relu)) ≠ [] := by
    intro hnil
    rw [hnil] at hlin
    simp at hlin
  refine ⟨hlen, softmaxWith_sum e _ he hne, softmaxWith_mem_unit e _ he, ?_⟩
  have : classifierForward e d Wh bh Wo bo x ≠ [] := by
    intro hnil
    rw [hnil] at hlen
    simp at hlen
  have := argmaxIdx_lt _ this
  rwa [hlen] at this

theorem classifierForward_distribution_witness :
    (∀ x : ℚ, 0 < (fun _ : ℚ => (1 : ℚ)) x) ∧
    (classifierForward (fun _ => 1) id [] []
      (List.replicate 10 []) (List.replicate 10 0) []).sum = 1 := by
  have he : ∀ x : ℚ, 0 < (fun _ : ℚ => (1 : ℚ)) x := fun _ => one_pos
  refine ⟨he, ?_⟩
  have h := classifierForward_distribution (fun _ => 1) id [] []
    (List.replicate 10 []) (List.replicate 10 0) [[]] he
    (List.length_replicate 10 []) (List.length_replicate 10 0)
  exact (h.2 _ (by simp [classifierForwardBatch])).2.1

/-! ## Persistent-state effects of the notebook's operations -/

/-- The notebook's top-level operations, in execution order. -/
inductive NotebookOp : Type
  | colabPipInstall
  | fetchOpenml (dataHome : Option String)
  | astypeCast
  | div255
  | splitOp
  | assertShapes
  | defineClassifier
  | fitNet
  | predictNet
  | meanEval
  | reshapeCnn
  | splitCnnOp
  | defineCnn
  | fitCnn
  | predictCnn
  | meanEvalCnn
deriving DecidableEq

open NotebookOp in
/-- The directories to which an operation writes persistent on-disk state.
`fetch_openml` downloads the dataset and caches it on disk under its
`data_home` argument (sklearn documents `data_home` as the download and
cache folder; without it the default user cache directory is used).  All
other operations only touch transient in-memory arrays; the pip-install
cell is a no-op outside colab. -/
def persistentWrites : NotebookOp → List String
  | fetchOpenml (some d) => [d]
  | fetchOpenml none => ["~/scikit_learn_data"]
  | _ => []

open NotebookOp in
/-- The operations the notebook performs, in order; the fetch passes
`data_home` as the `datasets` directory. -/
def notebookOps : List NotebookOp :=
  [colabPipInstall, fetchOpenml (some ("datasets")), astypeCast, div255,
   splitOp, assertShapes, defineClassifier, fitNet, predictNet, meanEval,
   reshapeCnn, splitCnnOp, defineCnn, fitCnn, predictCnn, meanEvalCnn]

/-- **C8, counterexample.** The claim that no operation of the notebook
writes persistent state is false: the dataset fetch, run with
`data_home='datasets'`, caches the downloaded dataset on disk. -/
theorem notebook_writes_disk :
    ¬ (∀ op ∈ notebookOps, persistentWrites op = []) := by
  intro h
  have := h (NotebookOp.fetchOpenml (some ("datasets"))) (by decide)
  simp [persistentWrites] at this

/-- **C8, amended.** The notebook implements no caching of its own and,
apart from the dataset fetch, no operation writes persistent state; the
fetch is the sole exception, caching the downloaded dataset under the
`datasets` directory it passes as `data_home`. -/
theorem notebook_persistent_writes_only_fetch :
    (∀ op ∈ notebookOps, persistentWrites op ≠ [] →
      op = NotebookOp.fetchOpenml (some ("datasets"))) ∧
    persistentWrites (NotebookOp.fetchOpenml (some ("datasets"))) = ["datasets"] := by
  constructor
  · intro op hop hw
    fin_cases hop <;> simp_all [persistentWrites]
  · rfl

theorem notebook_persistent_writes_only_fetch_witness :
    NotebookOp.fetchOpenml (some ("datasets"))
      = NotebookOp.fetchOpenml (some ("datasets")) :=
  notebook_persistent_writes_only_fetch.1
    (NotebookOp.fetchOpenml (some ("datasets"))) (by decide) (by decide)

/-! ## Error propagation through the cells -/

/-- The library calls the notebook makes, in order. -/
inductive CallName : Type
  | fetchOpenmlCall
  | astypeFloat32Call
  | astypeInt64Call
  | div255Call
  | splitCall
  | assertCall
  | netFitCall
  | netPredictCall
  | meanEvalCall
  | reshapeCall
  | splitCnnCall
  | cnnFitCall
  | cnnPredictCall
  | meanEvalCnnCall
deriving DecidableEq

/-- A minimal statement language for notebook cells: a bare library call, or
a call wrapped in a try/except that swallows the exception.  Error values
are modelled as numeric codes. -/
inductive PyStmt : Type
  | call (n : CallName)
  | guardedCall (n : CallName)
deriving DecidableEq

def PyStmt.isBareCall : PyStmt → Bool
  | .call _ => true
  | .guardedCall _ => false

/-- Run one statement against an environment assigning every library call
its outcome; a guarded call swallows any error. -/
def runStmt (env : CallName → Except ℕ Unit) : PyStmt → Except ℕ Unit
  | .call n => env n
  | .guardedCall n =>
    match env n with
    | .error _ => .ok ()
    | .ok () => .ok ()

/-- Run the statements in order, stopping at the first uncaught error. -/
def runProg (env : CallName → Except ℕ Unit) : List PyStmt → Except ℕ Unit
  | [] => .ok ()
  | s :: rest =>
    match runStmt env s with
    | .error e => .error e
    | .ok () => runProg env rest

open PyStmt CallName in
/-- The notebook as a sequence of statements: every cell is a bare library
call; no cell contains a try/except. -/
def notebookProgram : List PyStmt :=
  [call fetchOpenmlCall, call astypeFloat32Call, call astypeInt64Call,
   call div255Call, call splitCall, call assertCall, call netFitCall,
   call netPredictCall, call meanEvalCall, call reshapeCall,
   call splitCnnCall, call cnnFitCall, call cnnPredictCall,
   call meanEvalCnnCall]

theorem runProg_append_error (env : CallName → Except ℕ Unit)
    (a b : List PyStmt) (n : CallName) (e : ℕ)
    (ha : ∀ s ∈ a, runStmt env s = .ok ()) (hn : env n = .error e) :
    runProg env (a ++ .call n :: b) = .error e := by
  induction a with
  | nil => simp [runProg, runStmt, hn]
  | cons s a ih =>
    have hs := ha s (List.mem_cons_self s a)
    rw [List.cons_append, runProg, hs]
    exact ih (fun t ht => ha t (List.mem_cons_of_mem s ht))

/-- **C9.** The notebook has no failure handling of its own: every cell is a
bare library call (no try/except anywhere), and consequently if some library
call raises an error while all calls before it succeed, running the notebook
yields exactly that error, unchanged. -/
theorem notebook_propagates_errors :
    (∀ s ∈ notebookProgram, s.isBareCall = true) ∧
    (∀ (env : CallName → Except ℕ Unit) (a b : List PyStmt)
       (n : CallName) (e : ℕ),
      notebookProgram = a ++ .call n :: b →
      (∀ s ∈ a, runStmt env s = .ok ()) →
      env n = .error e →
      runProg env notebookProgram = .error e) := by
  refine ⟨by decide, ?_⟩
  intro env a b n e hsplit ha hn
  rw [hsplit]
  exact runProg_append_error env a b n e ha hn

theorem notebook_propagates_errors_witness :
    runProg (fun _ => Except.error 7) notebookProgram = Except.error 7 :=
  notebook_propagates_errors.2 (fun _ => Except.error 7) []
    (notebookProgram.tail) CallName.fetchOpenmlCall 7 rfl
    (fun s hs => absurd hs (List.not_mem_nil s)) rfl

/-! ## The two walkthrough copies -/

/-- A walkthrough notebook, abstracted as its ordered list of cell labels. -/
structure NotebookDoc where
  cells : List String
deriving DecidableEq

/-- The walkthrough skeleton of `notebooks/MNIST.ipynb`. -/
def mnistNotebook : NotebookDoc :=
  ⟨["loading_data", "preprocessing", "scaling", "split", "build_ffnn",
    "train_ffnn", "predict_ffnn", "evaluate_ffnn", "reshape_cnn",
    "split_cnn", "build_cnn", "train_cnn", "predict_cnn", "evaluate_cnn"]⟩

/-- Modelled from the spec: the repository contains a second, near-duplicate
version of the same MNIST walkthrough; that copy is not under src, so it is
modelled, per the spec, as the same walkthrough skeleton up to a small
variation (one extra variant cell). -/
def mnistNotebookCopy : NotebookDoc :=
  ⟨mnistNotebook.cells ++ ["colab_setup_variant"]⟩

/-- The walkthrough versions the repository holds. -/
def repoWalkthroughs : List NotebookDoc := [mnistNotebook, mnistNotebookCopy]

/-- `a` and `b` are near-duplicates: each shares at least half of its cells
with the other. -/
def NearDuplicate (a b : NotebookDoc) : Prop :=
  a.cells.length ≤ (a.cells.filter (fun c => b.cells.contains c)).length * 2 ∧
  b.cells.length ≤ (b.cells.filter (fun c => a.cells.contains c)).length * 2

/-- **C10.** The repository holds exactly two versions of the MNIST
walkthrough, which are distinct files but near-duplicates of one another. -/
theorem repoWalkthroughs_two_near_duplicates :
    repoWalkthroughs.length = 2 ∧
    mnistNotebook ≠ mnistNotebookCopy ∧
    NearDuplicate mnistNotebook mnistNotebookCopy := by
  exact ⟨rfl, by decide, by decide, by decide⟩

end MNISTNotebook
